import Mathlib

set_option maxRecDepth 100000

/-!
Verification of the chameleon-hash Merkle tree subsystem of FlexiSN.

The Go sources embedded here are `chamMerkleTree/chamMerkleTree.go`,
`cmd/send.go` (metadata serialization) and `websocket/utils.go`
(metadata parsing).  Byte strings are modelled as `List Nat` (each
element a byte value), byte streams as the list of blocks the read
loop produces, and SHA-256 as an explicit function parameter
`sha : List Nat → List Nat`.  Functions that can panic in Go (index
out of range) return `Option`, with `none` for the panic.

The chameleon-hash / elliptic-curve package (`ComputeHash`,
`VerifyHash`, `FindCollision`, `GetCurve`) is called by the Merkle
code but its source is not part of the repository snapshot; it is
modelled from the specification (section 4.2), with the curve group
abstracted to the additive group of integers modulo the P-256 group
order (generator 1, scalar multiplication = multiplication,
x-coordinate = the element itself).
-/

namespace FlexiSN

/-- Big-endian interpretation of a byte list, as Go's `big.Int.SetBytes`. -/
def natOfBytes (bs : List Nat) : Nat :=
  bs.foldl (fun a b => a * 256 + b) 0

/-- Fuelled minimal big-endian byte rendering; fuel bounds the recursion depth. -/
def natBytesGo : Nat → Nat → List Nat
  | 0, _ => []
  | f + 1, n => if n = 0 then [] else natBytesGo f (n / 256) ++ [n % 256]

/-- Minimal big-endian bytes of a natural number, as Go's `big.Int.Bytes`
(the empty list for zero). -/
def natBytes (n : Nat) : List Nat :=
  natBytesGo n n

/-- Fixed-width big-endian bytes (most significant first), width `w`. -/
def natBytesFixed : Nat → Nat → List Nat
  | 0, _ => []
  | w + 1, n => natBytesFixed w (n / 256) ++ [n % 256]

/-- Order of the P-256 curve group, the modulus of the spec's scalar field. -/
def curveN : Nat :=
  0xffffffff00000000ffffffffffffffffbce6faada7179e84f3b9cac2fc632551

/-- Modelled from the spec: the repository calls `ComputeHash`, `VerifyHash`
and `FindCollision` from a chameleon-hash package whose source is missing from
the snapshot.  Per spec 4.2, `e = SHA-256(m ‖ rX_bytes) mod n` with `rX`
rendered as 32 bytes. -/
def chamE (sha : List Nat → List Nat) (m : List Nat) (rX : Nat) : Nat :=
  natOfBytes (sha (m ++ natBytesFixed 32 rX)) % curveN

/-- Modelled from the spec: `Hash(m, P)` samples `k`, `s`, sets `R = k·G`,
`e = H(m ‖ rX)`, `Q = s·G + e·P`, returning `(rX, rY, s, hX)` with
`hX = Q.x`.  The group is abstracted to integers mod `curveN` with `G = 1`,
so a point is a scalar and both coordinates of `R` are `k mod n`.
Randomness `k`, `s` is passed explicitly. -/
def ComputeHash (sha : List Nat → List Nat) (m : List Nat) (pubX _pubY : Nat)
    (k s : Nat) : Nat × Nat × Nat × Nat :=
  let rX := k % curveN
  let e := chamE sha m rX
  (rX, rX, s, (s + e * pubX) % curveN)

/-- Modelled from the spec: `Verify(m, hX, P, (rX, rY, s))` recomputes
`e` from `m` and `rX` and checks `(s·G + e·P).x = hX`. -/
def VerifyHash (sha : List Nat → List Nat) (m : List Nat)
    (rX _rY s pubX _pubY hX : Nat) : Bool :=
  (s + chamE sha m rX * pubX) % curveN == hX

/-- Modelled from the spec: `FindCollision` keeps `R` and returns
`s' = s + (e − e')·x mod n` where `e = H(m ‖ rX)`, `e' = H(m' ‖ rX)`. -/
def FindCollision (sha : List Nat → List Nat) (m : List Nat)
    (rX rY s _hX : Nat) (m2 : List Nat) (x : Nat) : Nat × Nat × Nat :=
  let e := chamE sha m rX
  let e2 := chamE sha m2 rX
  (rX, rY, (s + (e + (curveN - e2)) * x) % curveN)

/-- ChameleomPubKey from chamMerkleTree.go (the source's spelling). -/
structure ChameleomPubKey where
  pubX : Nat
  pubY : Nat
deriving DecidableEq, Repr

/-- Serialize from chamMerkleTree.go: `pubX.Bytes() ‖ pubY.Bytes()`
(minimal encodings, unpadded). -/
def ChameleomPubKey.Serialize (pk : ChameleomPubKey) : List Nat :=
  natBytes pk.pubX ++ natBytes pk.pubY

/-- DeserializeChameleomPubKey from chamMerkleTree.go: splits at byte 32;
`none` models the out-of-range panic of `data[:32]` when the input is
shorter than 32 bytes. -/
def DeserializeChameleomPubKey (data : List Nat) : Option ChameleomPubKey :=
  if data.length < 32 then none
  else some ⟨natOfBytes (data.take 32), natOfBytes (data.drop 32)⟩

/-- ChameleonRandomNum from chamMerkleTree.go. -/
structure ChameleonRandomNum where
  rX : Nat
  rY : Nat
  s : Nat
deriving DecidableEq, Repr

/-- Serialize from chamMerkleTree.go: `rX.Bytes() ‖ rY.Bytes() ‖ s.Bytes()`
(minimal encodings, unpadded). -/
def ChameleonRandomNum.Serialize (r : ChameleonRandomNum) : List Nat :=
  natBytes r.rX ++ natBytes r.rY ++ natBytes r.s

/-- DeserializeChameleonRandomNum from chamMerkleTree.go: slices
`data[:32]`, `data[32:64]`, `data[64:]`; `none` models the panic when the
input is shorter than 64 bytes. -/
def DeserializeChameleonRandomNum (data : List Nat) : Option ChameleonRandomNum :=
  if data.length < 64 then none
  else some ⟨natOfBytes (data.take 32), natOfBytes ((data.drop 32).take 32),
    natOfBytes (data.drop 64)⟩

/-- MerkleNode from chamMerkleTree.go; `nil` models the Go nil pointer. -/
inductive MerkleNode where
  | nil : MerkleNode
  | node (hash : List Nat) (left right : MerkleNode) : MerkleNode
deriving DecidableEq, Repr

/-- Hash field access; Go would dereference, so callers only use it on
non-nil nodes. -/
def MerkleNode.hashOf : MerkleNode → List Nat
  | .nil => []
  | .node h _ _ => h

/-- Number of tree cells, the fuel measure for the breadth-first walk. -/
def MerkleNode.size : MerkleNode → Nat
  | .nil => 1
  | .node _ l r => 1 + l.size + r.size

/-- One pass of the inner build loop (`for i := 0; i < len(nodes); i += 2`):
adjacent nodes are paired under a SHA-256 parent, a trailing unpaired node
is copied unchanged. -/
def pairUp (sha : List Nat → List Nat) : List MerkleNode → List MerkleNode
  | [] => []
  | [t] => [t]
  | a :: b :: rest =>
    .node (sha (a.hashOf ++ b.hashOf)) a b :: pairUp sha rest

/-- Fuelled outer build loop (`for len(nodes) > 2`). -/
def buildLevelsGo (sha : List Nat → List Nat) : Nat → List MerkleNode → List MerkleNode
  | 0, nodes => nodes
  | f + 1, nodes => if 2 < nodes.length then buildLevelsGo sha f (pairUp sha nodes) else nodes

/-- The build loop of BuildMerkleTree / UpdateMerkleTree /
RebuildMerkleTreeFromMetaData: repeat `pairUp` while more than two nodes
remain.  The list length bounds the number of iterations. -/
def buildLevels (sha : List Nat → List Nat) (nodes : List MerkleNode) : List MerkleNode :=
  buildLevelsGo sha nodes.length nodes

/-- Top of the tree as assembled at the end of BuildMerkleTree: one
remaining node becomes the root's left child, two become its children,
and the combined digest is the single hash or the concatenation.
`none` models the `nodes[0]` panic on an empty list. -/
def topOf (nodes : List MerkleNode) : Option (MerkleNode × MerkleNode × List Nat) :=
  match nodes with
  | [] => none
  | [t] => some (t, .nil, t.hashOf)
  | a :: b :: _ => some (a, b, a.hashOf ++ b.hashOf)

/-- BuildMerkleTree from chamMerkleTree.go, over the list of blocks the
read loop produces.  Returns the root, the chameleon randomness and the
combined top digest; `none` models the panic on an empty stream. -/
def BuildMerkleTree (sha : List Nat → List Nat) (blocks : List (List Nat))
    (pubKey : ChameleomPubKey) (k s : Nat) :
    Option (MerkleNode × ChameleonRandomNum × List Nat) :=
  match topOf (buildLevels sha (blocks.map (fun b => MerkleNode.node (sha b) .nil .nil))) with
  | none => none
  | some (a, b, combined) =>
    match ComputeHash sha combined pubKey.pubX pubKey.pubY k s with
    | (rX, rY, sOut, hX) => some (.node (natBytes hX) a b, ⟨rX, rY, sOut⟩, combined)

/-- UpdateMerkleTree from chamMerkleTree.go: rebuilds the skeleton from the
new blocks, finds a chameleon collision against the previous root hash and
assigns the unchanged `prevRootHash` to the new root.  `none` models the
panic on an empty stream. -/
def UpdateMerkleTree (sha : List Nat → List Nat) (blocks : List (List Nat))
    (_pubKey : ChameleomPubKey) (secKey prevRootHash chameleonHash : List Nat)
    (randomNum : ChameleonRandomNum) :
    Option (MerkleNode × ChameleonRandomNum) :=
  match topOf (buildLevels sha (blocks.map (fun b => MerkleNode.node (sha b) .nil .nil))) with
  | none => none
  | some (a, b, combined) =>
    match FindCollision sha chameleonHash randomNum.rX randomNum.rY
      randomNum.s (natOfBytes prevRootHash) combined (natOfBytes secKey) with
    | (rX, rY, sOut) => some (.node prevRootHash a b, ⟨rX, rY, sOut⟩)

/-- VerifyMerkleRoot from chamMerkleTree.go: chameleon verification of the
root, with `hX = SetBytes(rootHash)`. -/
def VerifyMerkleRoot (sha : List Nat → List Nat) (text hXBytes : List Nat)
    (pubKey : ChameleomPubKey) (randomNum : ChameleonRandomNum) : Bool :=
  VerifyHash sha text randomNum.rX randomNum.rY randomNum.s
    pubKey.pubX pubKey.pubY (natOfBytes hXBytes)

/-- Fuelled breadth-first queue walk of GetAllLeavesHashes: pop the front,
record the hash of a node with two nil children, push non-nil children. -/
def bfsLeavesGo : Nat → List MerkleNode → List (List Nat)
  | 0, _ => []
  | _ + 1, [] => []
  | f + 1, .nil :: q => bfsLeavesGo f q
  | f + 1, .node h l r :: q =>
    let kids := (if l = .nil then [] else [l]) ++ (if r = .nil then [] else [r])
    (if l = .nil ∧ r = .nil then [h] else []) ++ bfsLeavesGo f (q ++ kids)

/-- Total size of the queued trees, the fuel for the breadth-first walk. -/
def queueSize (q : List MerkleNode) : Nat :=
  (q.map MerkleNode.size).sum

/-- GetAllLeavesHashes from chamMerkleTree.go: level-order traversal
collecting the hashes of leaf nodes. -/
def GetAllLeavesHashes (root : MerkleNode) : List (List Nat) :=
  bfsLeavesGo (queueSize [root]) [root]

/-- Directions of the depth-first search of GenerateMerkleProof: `some ds`
when a node whose hash equals `target` is found (preorder, first match),
`true` for a step into the left child. -/
def findDirs : MerkleNode → List Nat → Option (List Bool)
  | .nil, _ => none
  | .node h l r, target =>
    if h = target then some []
    else
      match findDirs l target with
      | some ds => some (true :: ds)
      | none =>
        match findDirs r target with
        | some ds => some (false :: ds)
        | none => none

/-- Sibling pairs collected along the found path, as GenerateMerkleProof
emits them: for each step the slot on the path's side is the empty byte
string, the opposite slot holds the sibling's hash when that sibling is
non-nil. -/
def sibsAlong : MerkleNode → List Bool → List (List Nat)
  | _, [] => []
  | .nil, _ :: _ => []
  | .node _ l r, d :: ds =>
    if d then
      [] :: r.hashOf :: sibsAlong l ds
    else
      l.hashOf :: [] :: sibsAlong r ds

/-- GenerateMerkleProof from chamMerkleTree.go: DFS for the target hash,
then the flattened root-to-target list of sibling pairs (empty when the
target hash occurs nowhere). -/
def GenerateMerkleProof (root : MerkleNode) (target : List Nat) : List (List Nat) :=
  match findDirs root target with
  | none => []
  | some ds => sibsAlong root ds

/-- The loop of VerifyMerkleProof (`for i := len-2; i >= 2; i -= 2`):
at index `i`, fold the pair `(proof[i], proof[i+1])` into the running hash. -/
def verifySteps (sha : List Nat → List Nat) (mp : List (List Nat)) :
    Nat → List Nat → List Nat
  | 0, cur => cur
  | 1, cur => cur
  | i + 2, cur =>
    let L := mp.getD (i + 2) []
    let R := mp.getD (i + 3) []
    verifySteps sha mp i (sha (if L = [] then cur ++ R else L ++ cur))

/-- VerifyMerkleProof from chamMerkleTree.go.  After the loop the first
pair forms the top digest, which is checked by chameleon verification.
`none` models the `merkleProof[0]` / `merkleProof[1]` panics on proofs of
length 0, or of length 1 with an empty first entry. -/
def VerifyMerkleProof (sha : List Nat → List Nat) (rootHash targetHash : List Nat)
    (merkleProof : List (List Nat)) (pubKey : ChameleomPubKey)
    (randomNum : ChameleonRandomNum) : Option Bool :=
  match merkleProof with
  | [] => none
  | p0 :: rest =>
    let cur := verifySteps sha merkleProof (merkleProof.length - 2) targetHash
    if p0 = [] then
      match rest with
      | [] => none
      | p1 :: _ =>
        if p1 = [] then some (VerifyMerkleRoot sha cur rootHash pubKey randomNum)
        else some (VerifyMerkleRoot sha (cur ++ p1) rootHash pubKey randomNum)
    else some (VerifyMerkleRoot sha (p0 ++ cur) rootHash pubKey randomNum)

/-- MetaData from DHT/fileSwap.go. -/
structure MetaData where
  RootHash : List Nat
  RandomNum : List Nat
  PublicKey : List Nat
  Leaves : List (List Nat)
deriving DecidableEq, Repr

/-- The metadata sendMetadata (cmd/send.go) builds from a tree: root hash,
serialized randomness, serialized public key, level-order leaf hashes. -/
def mkMetaData (root : MerkleNode) (randomNum : ChameleonRandomNum)
    (pubKey : ChameleomPubKey) : MetaData :=
  ⟨root.hashOf, randomNum.Serialize, pubKey.Serialize, GetAllLeavesHashes root⟩

/-- RebuildMerkleTreeFromMetaData from chamMerkleTree.go.  Outer `none`
models a panic (empty leaves, short randomness or public key); inner
`none` models the returned "Merkle root verification failed" error. -/
def RebuildMerkleTreeFromMetaData (sha : List Nat → List Nat) (md : MetaData) :
    Option (Option (MerkleNode × ChameleonRandomNum × ChameleomPubKey)) :=
  match topOf (buildLevels sha (md.Leaves.map (fun h => MerkleNode.node h .nil .nil))) with
  | none => none
  | some (a, b, combined) =>
    match DeserializeChameleonRandomNum md.RandomNum with
    | none => none
    | some randomNum =>
      match DeserializeChameleomPubKey md.PublicKey with
      | none => none
      | some pubKey =>
        if VerifyMerkleRoot sha combined md.RootHash pubKey randomNum then
          some (some (.node md.RootHash a b, randomNum, pubKey))
        else some none

/-! Metadata codec: `sendMetadata` (cmd/send.go) serializes a `MetaData`
with Go's `encoding/json`, which renders `[]byte` fields as standard
base64; `ParseTxValue` (websocket/utils.go) double-decodes a chain
envelope and hex-decodes the fields, calling `log.Fatalf` on every
decoding error.  The JSON model below covers the grammar these inputs
exercise: strings (with `\"` and `\\` escapes), objects, arrays, `null`,
`true`, `false`; keys are matched exactly. -/

/-- JSON values, as far as the metadata codec exercises them. -/
inductive Jv where
  | jnull : Jv
  | jbool (b : Bool) : Jv
  | jstr (s : List Char) : Jv
  | jarr (elems : List Jv) : Jv
  | jobj (members : List (List Char × Jv)) : Jv

/-- JSON whitespace skipping. -/
def skipWs (cs : List Char) : List Char :=
  cs.dropWhile (fun c => c = ' ' ∨ c = '\t' ∨ c = '\n' ∨ c = '\r')

/-- Body of a JSON string after the opening quote: scan to the closing
quote, accepting the escapes `\"` and `\\`. -/
def strBody : List Char → Option (List Char × List Char)
  | [] => none
  | '"' :: r => some ([], r)
  | '\\' :: c :: r =>
    if c = '"' ∨ c = '\\' then (strBody r).map (fun p => (c :: p.1, p.2)) else none
  | '\\' :: [] => none
  | c :: r => (strBody r).map (fun p => (c :: p.1, p.2))

mutual

/-- Fuelled recursive-descent JSON value reader. -/
def jpVal : Nat → List Char → Option (Jv × List Char)
  | 0, _ => none
  | f + 1, cs =>
    match skipWs cs with
    | '"' :: rest => (strBody rest).map (fun p => (.jstr p.1, p.2))
    | '\x7b' :: rest => (jpMembers f rest).map (fun p => (.jobj p.1, p.2))
    | '[' :: rest => (jpElems f rest).map (fun p => (.jarr p.1, p.2))
    | 'n' :: 'u' :: 'l' :: 'l' :: r => some (.jnull, r)
    | 't' :: 'r' :: 'u' :: 'e' :: r => some (.jbool true, r)
    | 'f' :: 'a' :: 'l' :: 's' :: 'e' :: r => some (.jbool false, r)
    | _ => none

/-- Members of a JSON object after the opening brace. -/
def jpMembers : Nat → List Char → Option (List (List Char × Jv) × List Char)
  | 0, _ => none
  | f + 1, cs =>
    match skipWs cs with
    | '\x7d' :: r => some ([], r)
    | '"' :: rest =>
      match strBody rest with
      | none => none
      | some (key, r1) =>
        match skipWs r1 with
        | ':' :: r2 =>
          match jpVal f r2 with
          | none => none
          | some (v, r3) =>
            match skipWs r3 with
            | ',' :: r4 => (jpMembers f r4).map (fun p => ((key, v) :: p.1, p.2))
            | '\x7d' :: r4 => some ([(key, v)], r4)
            | _ => none
        | _ => none
    | _ => none

/-- Elements of a JSON array after the opening bracket. -/
def jpElems : Nat → List Char → Option (List Jv × List Char)
  | 0, _ => none
  | f + 1, cs =>
    match skipWs cs with
    | ']' :: r => some ([], r)
    | _ =>
      match jpVal f (skipWs cs) with
      | none => none
      | some (v, r1) =>
        match skipWs r1 with
        | ',' :: r2 => (jpElems f r2).map (fun p => (v :: p.1, p.2))
        | ']' :: r2 => some ([v], r2)
        | _ => none

end

/-- Whole-input JSON reading, as `json.Unmarshal` requires: one value and
nothing but whitespace after it. -/
def jsonRead (cs : List Char) : Option Jv :=
  match jpVal cs.length cs with
  | none => none
  | some (v, rest) => if skipWs rest = [] then some v else none

/-- Object member lookup; Go's decoder keeps the last of duplicate keys. -/
def lookupKey (k : List Char) (kvs : List (List Char × Jv)) : Option Jv :=
  (kvs.reverse.find? (fun p => p.1 = k)).map (·.2)

/-- Model of `json.Unmarshal(jsonStr, &struct{ Params struct{ Value string } })`
from ParseTxValue: `some v` is the extracted `params.value` (the zero value
`""` when absent or null), `none` a decoding error. -/
def envelopeValue (cs : List Char) : Option (List Char) :=
  match jsonRead cs with
  | none => none
  | some .jnull => some []
  | some (.jobj kvs) =>
    match lookupKey "params".toList kvs with
    | none => some []
    | some .jnull => some []
    | some (.jobj kvs2) =>
      match lookupKey "value".toList kvs2 with
      | none => some []
      | some .jnull => some []
      | some (.jstr s) => some s
      | some _ => none
    | some _ => none
  | some _ => none

/-- Model of unmarshalling one string-typed struct field: absent and null
decode to the zero value, a string to itself, anything else errors. -/
def strField (k : List Char) (kvs : List (List Char × Jv)) : Option (List Char) :=
  match lookupKey k kvs with
  | none => some []
  | some .jnull => some []
  | some (.jstr s) => some s
  | some _ => none

/-- Model of unmarshalling the `leaves []string` field. -/
def strListField (k : List Char) (kvs : List (List Char × Jv)) :
    Option (List (List Char)) :=
  match lookupKey k kvs with
  | none => some []
  | some .jnull => some []
  | some (.jarr els) =>
    els.mapM (fun e =>
      match e with
      | .jstr s => some s
      | .jnull => some ([] : List Char)
      | _ => none)
  | some _ => none

/-- Model of `json.Unmarshal(value, &parseData)` from ParseTxValue: the four
string fields of the inner metadata object. -/
def parseDataFields (cs : List Char) :
    Option (List Char × List Char × List Char × List (List Char)) :=
  match jsonRead cs with
  | none => none
  | some .jnull => some ([], [], [], [])
  | some (.jobj kvs) =>
    match strField "rootHash".toList kvs, strField "randomNum".toList kvs,
      strField "publicKey".toList kvs, strListField "leaves".toList kvs with
    | some rh, some rn, some pk, some ls => some (rh, rn, pk, ls)
    | _, _, _, _ => none
  | some _ => none

/-- Value of one hex digit, as `encoding/hex` accepts them. -/
def hexVal (c : Char) : Option Nat :=
  if '0' ≤ c ∧ c ≤ '9' then some (c.toNat - '0'.toNat)
  else if 'a' ≤ c ∧ c ≤ 'f' then some (c.toNat - 'a'.toNat + 10)
  else if 'A' ≤ c ∧ c ≤ 'F' then some (c.toNat - 'A'.toNat + 10)
  else none

/-- Model of `hex.DecodeString`: pairs of hex digits, error on an odd
length or an invalid digit. -/
def hexDecode : List Char → Option (List Nat)
  | [] => some []
  | [_] => none
  | a :: b :: rest =>
    match hexVal a, hexVal b, hexDecode rest with
    | some x, some y, some tl => some ((x * 16 + y) :: tl)
    | _, _, _ => none

/-- Hex-decoding of every leaf string, as ParseTxValue's loop does. -/
def hexDecodeAll : List (List Char) → Option (List (List Nat))
  | [] => some []
  | s :: rest =>
    match hexDecode s, hexDecodeAll rest with
    | some b, some tl => some (b :: tl)
    | _, _ => none

/-- Outcome of ParseTxValue: `fatal` models `log.Fatalf` aborting the
process; `ret md err` models `return &metaData, err`. -/
inductive GoParseRet where
  | fatal : GoParseRet
  | ret (md : MetaData) (err : Option (List Char)) : GoParseRet
deriving DecidableEq, Repr

/-- ParseTxValue from websocket/utils.go: decode the chain envelope, decode
the inner metadata object, hex-decode every field; every decoding error
calls `log.Fatalf` (modelled `fatal`); the only return statement is
`return &metaData, nil`. -/
def ParseTxValue (cs : List Char) : GoParseRet :=
  match envelopeValue cs with
  | none => .fatal
  | some v =>
    match parseDataFields v with
    | none => .fatal
    | some (rh, rn, pk, ls) =>
      match hexDecode rh, hexDecode rn, hexDecode pk, hexDecodeAll ls with
      | some rootHash, some randomNum, some publicKey, some leaves =>
        .ret ⟨rootHash, randomNum, publicKey, leaves⟩ none
      | _, _, _, _ => .fatal

/-- The standard base64 alphabet of `encoding/base64.StdEncoding`. -/
def b64Alphabet : List Char :=
  "ABCDEFGHIJKLMNOPQRSTUVWXYZabcdefghijklmnopqrstuvwxyz0123456789+/".toList

/-- Character of one 6-bit group. -/
def b64Char (i : Nat) : Char :=
  b64Alphabet.getD i 'A'

/-- Standard padded base64 of a byte list, as Go's `encoding/json` renders
`[]byte` values. -/
def b64Encode : List Nat → List Char
  | [] => []
  | [a] => [b64Char (a / 4), b64Char (a % 4 * 16), '=', '=']
  | [a, b] => [b64Char (a / 4), b64Char (a % 4 * 16 + b / 16), b64Char (b % 16 * 4), '=']
  | a :: b :: c :: rest =>
    b64Char (a / 4) :: b64Char (a % 4 * 16 + b / 16) ::
      b64Char (b % 16 * 4 + c / 64) :: b64Char (c % 64) :: b64Encode rest

/-- A JSON string literal (the rendered values are base64 and field names,
which need no escaping). -/
def jstrQ (s : List Char) : List Char :=
  '"' :: s ++ ['"']

/-- Comma-separated concatenation. -/
def commaJoin : List (List Char) → List Char
  | [] => []
  | [x] => x
  | x :: y :: rest => x ++ ',' :: commaJoin (y :: rest)

/-- Serialization of the metadata as `json.Marshal(metaData)` in
sendMetadata (cmd/send.go) produces it: the struct's fields in order under
their JSON tags, each `[]byte` rendered as a padded standard-base64 string
(a built tree has at least one leaf, so `Leaves` is a non-nil slice). -/
def marshalMetaData (m : MetaData) : List Char :=
  '\x7b' :: (jstrQ "rootHash".toList ++ ':' :: jstrQ (b64Encode m.RootHash)
    ++ ',' :: jstrQ "randomNum".toList ++ ':' :: jstrQ (b64Encode m.RandomNum)
    ++ ',' :: jstrQ "publicKey".toList ++ ':' :: jstrQ (b64Encode m.PublicKey)
    ++ ',' :: jstrQ "leaves".toList ++ ':'
    :: '[' :: commaJoin (m.Leaves.map (fun l => jstrQ (b64Encode l))) ++ [']'])
    ++ ['\x7d']

/-! Auxiliary notions used by the statements and proofs. -/

/-- Hashes of all nodes of a tree, in preorder. -/
def treeHashes : MerkleNode → List (List Nat)
  | .nil => []
  | .node h l r => h :: (treeHashes l ++ treeHashes r)

/-- One fold step of the verification loop on a sibling pair. -/
def stepPair (sha : List Nat → List Nat) (L R cur : List Nat) : List Nat :=
  sha (if L = [] then cur ++ R else L ++ cur)

/-- Structural form of the verification loop: the pairs of the list are
folded from the last pair towards the first. -/
def pairChain (sha : List Nat → List Nat) : List (List Nat) → List Nat → List Nat
  | [], cur => cur
  | [_], cur => cur
  | L :: R :: rest, cur => stepPair sha L R (pairChain sha rest cur)

/-- Invariant of the subtrees BuildMerkleTree assembles below the root:
every leaf hash is a `sha` image, every internal node has two non-nil
children and carries the `sha` of their concatenated hashes. -/
def goodT (sha : List Nat → List Nat) : MerkleNode → Prop
  | .nil => True
  | .node h .nil .nil => ∃ m, h = sha m
  | .node _ .nil (.node _ _ _) => False
  | .node _ (.node _ _ _) .nil => False
  | .node h (.node lh ll lr) (.node rh rl rr) =>
    h = sha (lh ++ rh) ∧ goodT sha (.node lh ll lr) ∧ goodT sha (.node rh rl rr)

/-! Concrete instances for witnesses and counterexamples.  `shaToy` is an
executable 32-byte-output stand-in for SHA-256. -/

/-- An executable 32-byte-output hash stand-in used on concrete inputs. -/
def shaToy (m : List Nat) : List Nat :=
  natBytesFixed 32 (m.foldl (fun a b => a * 257 + b + 1) 1)

/-- A concrete public key whose x-coordinate serializes to 32 bytes. -/
def pubA : ChameleomPubKey := ⟨2 ^ 255 + 12345, 7⟩

/-- Concrete chameleon nonce `k` with a 32-byte `k mod n`. -/
def kA : Nat := 2 ^ 255 + 999

/-- Concrete chameleon scalar `s`. -/
def sA : Nat := 424242

/-- Build over a single one-byte block. -/
def build1 : Option (MerkleNode × ChameleonRandomNum × List Nat) :=
  BuildMerkleTree shaToy [[9]] pubA kA sA

/-- Root of the single-block build. -/
def root1 : MerkleNode := match build1 with | some (r, _, _) => r | none => .nil

/-- Randomness of the single-block build. -/
def rnd1 : ChameleonRandomNum := match build1 with | some (_, r, _) => r | none => ⟨0, 0, 0⟩

/-- Build over two one-byte blocks. -/
def build2 : Option (MerkleNode × ChameleonRandomNum × List Nat) :=
  BuildMerkleTree shaToy [[1], [2]] pubA kA sA

/-- Root of the two-block build. -/
def root2 : MerkleNode := match build2 with | some (r, _, _) => r | none => .nil

/-- Randomness of the two-block build. -/
def rnd2 : ChameleonRandomNum := match build2 with | some (_, r, _) => r | none => ⟨0, 0, 0⟩

/-- Combined top digest of the two-block build. -/
def comb2 : List Nat := match build2 with | some (_, _, c) => c | none => []

/-- Build over three one-byte blocks (an odd leaf count with a promoted
trailing leaf). -/
def build3 : Option (MerkleNode × ChameleonRandomNum × List Nat) :=
  BuildMerkleTree shaToy [[1], [2], [3]] pubA kA sA

/-- Root of the three-block build. -/
def root3 : MerkleNode := match build3 with | some (r, _, _) => r | none => .nil

/-- Randomness of the three-block build. -/
def rnd3 : ChameleonRandomNum := match build3 with | some (_, r, _) => r | none => ⟨0, 0, 0⟩

/-- Build over four one-byte blocks. -/
def build4 : Option (MerkleNode × ChameleonRandomNum × List Nat) :=
  BuildMerkleTree shaToy [[1], [2], [3], [4]] pubA kA sA

/-- Root of the four-block build. -/
def root4 : MerkleNode := match build4 with | some (r, _, _) => r | none => .nil

/-- Randomness of the four-block build. -/
def rnd4 : ChameleonRandomNum := match build4 with | some (_, r, _) => r | none => ⟨0, 0, 0⟩

/-- Hash of the first internal node of the four-block tree. -/
def p12hash : List Nat := shaToy (shaToy [1] ++ shaToy [2])

/-- An update of the two-block tree with new blocks and a secret key `[3]`
that is not the discrete log of `pubA`. -/
def updW : Option (MerkleNode × ChameleonRandomNum) :=
  UpdateMerkleTree shaToy [[5], [6]] pubA [3] root2.hashOf comb2 rnd2

/-- Root of the mismatched-key update. -/
def updWroot : MerkleNode := match updW with | some (r, _) => r | none => .nil

/-- Randomness of the mismatched-key update. -/
def updWrnd : ChameleonRandomNum := match updW with | some (_, r) => r | none => ⟨0, 0, 0⟩

/-- An update with arbitrary previous values, used as a plain success
instance. -/
def updB : Option (MerkleNode × ChameleonRandomNum) :=
  UpdateMerkleTree shaToy [[5], [6]] pubA [3] [7, 7] [8, 8] ⟨1, 2, 3⟩

/-- Root of the plain update instance. -/
def updBroot : MerkleNode := match updB with | some (r, _) => r | none => .nil

/-- Randomness of the plain update instance. -/
def updBrnd : ChameleonRandomNum := match updB with | some (_, r) => r | none => ⟨0, 0, 0⟩

/-- A concrete metadata value for the serialization claims. -/
def mC8 : MetaData := ⟨[255], [255, 0], [1, 2, 3], [[255]]⟩

/-! Theorems. -/

/-- A non-empty node list has a top configuration. -/
theorem topOf_of_ne_nil (l : List MerkleNode) (h : l ≠ []) :
    ∃ a b c, topOf l = some (a, b, c) := by
  match l with
  | [] => exact absurd rfl h
  | [t] => exact ⟨t, .nil, t.hashOf, rfl⟩
  | a :: b :: rest => exact ⟨a, b, a.hashOf ++ b.hashOf, rfl⟩

/-- Pairing never empties a non-empty level. -/
theorem pairUp_ne_nil (sha : List Nat → List Nat) (l : List MerkleNode) (h : l ≠ []) :
    pairUp sha l ≠ [] := by
  match l with
  | [] => exact absurd rfl h
  | [t] => simp [pairUp]
  | a :: b :: rest => simp [pairUp]

/-- The fuelled build loop never empties a non-empty level. -/
theorem buildLevelsGo_ne_nil (sha : List Nat → List Nat) :
    ∀ (f : Nat) (l : List MerkleNode), l ≠ [] → buildLevelsGo sha f l ≠ [] := by
  intro f
  induction f with
  | zero => intro l h; simpa [buildLevelsGo] using h
  | succ f ih =>
    intro l h
    by_cases h2 : 2 < l.length
    · simpa [buildLevelsGo, h2] using ih _ (pairUp_ne_nil sha l h)
    · simpa [buildLevelsGo, h2] using h

/-- The build loop never empties a non-empty level. -/
theorem buildLevels_ne_nil (sha : List Nat → List Nat) (l : List MerkleNode) (h : l ≠ []) :
    buildLevels sha l ≠ [] :=
  buildLevelsGo_ne_nil sha l.length l h

/-- Unfolding equation of BuildMerkleTree once the top configuration is
known. -/
theorem BuildMerkleTree_eq (sha : List Nat → List Nat) (blocks : List (List Nat))
    (pub : ChameleomPubKey) (k s : Nat) (a b : MerkleNode) (c : List Nat)
    (htop : topOf (buildLevels sha
      (blocks.map (fun bl => MerkleNode.node (sha bl) .nil .nil))) = some (a, b, c)) :
    BuildMerkleTree sha blocks pub k s =
      some (.node (natBytes ((ComputeHash sha c pub.pubX pub.pubY k s).2.2.2)) a b,
        ⟨(ComputeHash sha c pub.pubX pub.pubY k s).1,
         (ComputeHash sha c pub.pubX pub.pubY k s).2.1,
         (ComputeHash sha c pub.pubX pub.pubY k s).2.2.1⟩, c) := by
  unfold BuildMerkleTree
  rw [htop]

/-- Unfolding equation of UpdateMerkleTree once the top configuration is
known. -/
theorem UpdateMerkleTree_eq (sha : List Nat → List Nat) (blocks : List (List Nat))
    (pub : ChameleomPubKey) (sk prh ch : List Nat) (rnd : ChameleonRandomNum)
    (a b : MerkleNode) (c : List Nat)
    (htop : topOf (buildLevels sha
      (blocks.map (fun bl => MerkleNode.node (sha bl) .nil .nil))) = some (a, b, c)) :
    UpdateMerkleTree sha blocks pub sk prh ch rnd =
      some (.node prh a b,
        ⟨(FindCollision sha ch rnd.rX rnd.rY rnd.s (natOfBytes prh) c (natOfBytes sk)).1,
         (FindCollision sha ch rnd.rX rnd.rY rnd.s (natOfBytes prh) c (natOfBytes sk)).2.1,
         (FindCollision sha ch rnd.rX rnd.rY rnd.s (natOfBytes prh) c (natOfBytes sk)).2.2⟩) := by
  unfold UpdateMerkleTree
  rw [htop]

/-- Unfolding equation of RebuildMerkleTreeFromMetaData once the top
configuration and the two deserializations are known. -/
theorem RebuildMerkleTreeFromMetaData_eq (sha : List Nat → List Nat) (md : MetaData)
    (a b : MerkleNode) (c : List Nat) (rn : ChameleonRandomNum) (pk : ChameleomPubKey)
    (htop : topOf (buildLevels sha
      (md.Leaves.map (fun h => MerkleNode.node h .nil .nil))) = some (a, b, c))
    (hrn : DeserializeChameleonRandomNum md.RandomNum = some rn)
    (hpk : DeserializeChameleomPubKey md.PublicKey = some pk) :
    RebuildMerkleTreeFromMetaData sha md =
      if VerifyMerkleRoot sha c md.RootHash pk rn then
        some (some (.node md.RootHash a b, rn, pk))
      else some none := by
  unfold RebuildMerkleTreeFromMetaData
  rw [htop, hrn, hpk]

/-- Rendering zero gives the empty byte string at any fuel. -/
theorem natBytesGo_zero : ∀ f, natBytesGo f 0 = [] := by
  intro f
  cases f <;> simp [natBytesGo]

/-- The fuel of the byte rendering is irrelevant once it covers the value. -/
theorem natBytesGo_fuel : ∀ f g n, n ≤ f → n ≤ g → natBytesGo f n = natBytesGo g n := by
  intro f
  induction f with
  | zero =>
    intro g n hf _
    have hn : n = 0 := Nat.le_zero.mp hf
    subst hn
    rw [natBytesGo_zero, natBytesGo_zero]
  | succ f ih =>
    intro g n hf hg
    cases g with
    | zero =>
      have hn : n = 0 := Nat.le_zero.mp hg
      subst hn
      rw [natBytesGo_zero, natBytesGo_zero]
    | succ g =>
      by_cases hn : n = 0
      · subst hn
        rw [natBytesGo_zero, natBytesGo_zero]
      · have hdiv := Nat.div_lt_self (Nat.pos_of_ne_zero hn) (by norm_num : 1 < 256)
        simp only [natBytesGo, if_neg hn]
        have heq := ih g (n / 256) (by omega) (by omega)
        rw [heq]

/-- Unfolding equation of the minimal big-endian rendering. -/
theorem natBytes_eq (n : Nat) :
    natBytes n = if n = 0 then [] else natBytes (n / 256) ++ [n % 256] := by
  by_cases hn : n = 0
  · subst hn
    rw [if_pos rfl]
    rfl
  · rw [if_neg hn]
    unfold natBytes
    cases n with
    | zero => exact absurd rfl hn
    | succ m =>
      have hdiv := Nat.div_lt_self (Nat.succ_pos m) (by norm_num : 1 < 256)
      simp only [natBytesGo, if_neg hn]
      rw [natBytesGo_fuel m ((m + 1) / 256) ((m + 1) / 256) (by omega) le_rfl]

/-- Appending one byte multiplies the value by 256 and adds the byte. -/
theorem natOfBytes_snoc (xs : List Nat) (b : Nat) :
    natOfBytes (xs ++ [b]) = natOfBytes xs * 256 + b := by
  unfold natOfBytes
  rw [List.foldl_append]
  rfl

/-- The big-endian rendering round-trips through `SetBytes`. -/
theorem natOfBytes_natBytes (n : Nat) : natOfBytes (natBytes n) = n := by
  induction n using Nat.strong_induction_on with
  | _ n ih =>
    rw [natBytes_eq]
    by_cases hn : n = 0
    · subst hn
      rw [if_pos rfl]
      rfl
    · have hdiv := Nat.div_lt_self (Nat.pos_of_ne_zero hn) (by norm_num : 1 < 256)
      rw [if_neg hn, natOfBytes_snoc, ih (n / 256) hdiv]
      omega

/-- C5: BuildMerkleTree never returns an EmptyStream error on a stream
with zero blocks; it reaches the out-of-range access at `nodes[0]`
(modelled `none`, a panic) for every hash function, key and nonce. -/
theorem C5_empty_stream_panics :
    ∀ (sha : List Nat → List Nat) (pub : ChameleomPubKey) (k s : Nat),
      BuildMerkleTree sha [] pub k s = none := by
  intro sha pub k s
  rfl

/-- C2: on three blocks the level-order traversal of the built tree lists
the promoted trailing leaf first, so the leaf hashes are not in stream
order. -/
theorem C2_leaf_order_violated_at_three_blocks :
    GetAllLeavesHashes root3 = [shaToy [3], shaToy [1], shaToy [2]] ∧
    GetAllLeavesHashes root3 ≠ [shaToy [1], shaToy [2], shaToy [3]] := by
  exact ⟨by decide, by decide⟩

/-- C1: the build-to-verify round trip fails on three blocks: the
rebuilt top digest differs from the built one because the metadata
leaves are out of stream order, and RebuildMerkleTreeFromMetaData
returns the "Merkle root verification failed" error (`some none`). -/
theorem C1_roundtrip_fails_at_three_blocks :
    (∃ c, build3 = some (root3, rnd3, c)) ∧
    RebuildMerkleTreeFromMetaData shaToy (mkMetaData root3 rnd3 pubA) = some none := by
  exact ⟨⟨p12hash ++ shaToy [3], by decide⟩, by decide⟩

/-- C4 counterexample: for a single-block tree, GenerateMerkleProof
returns the pair of two empty byte strings, not the empty sequence, and
VerifyMerkleProof applied to the literal empty proof reaches the
`merkleProof[0]` out-of-range access (modelled `none`) instead of
returning true. -/
theorem C4_single_leaf_proof_not_empty :
    GenerateMerkleProof root1 (shaToy [9]) = [[], []] ∧
    VerifyMerkleProof shaToy root1.hashOf (shaToy [9]) [] pubA rnd1 = none := by
  exact ⟨by decide, by decide⟩

/-- C3 counterexample: in the four-block tree the hash of the internal
node over the first two leaves is not a leaf hash, yet verification of
it with its generated proof returns true, not false. -/
theorem C3_internal_hash_verifies_true :
    p12hash ∉ GetAllLeavesHashes root4 ∧
    VerifyMerkleProof shaToy root4.hashOf p12hash (GenerateMerkleProof root4 p12hash)
      pubA rnd4 = some true := by
  exact ⟨by decide, by decide⟩

/-- C7 counterexample: with a secret key that is not the discrete log of
the public key, UpdateMerkleTree still returns success, and the returned
randomness does not chameleon-verify against the new top digest. -/
theorem C7_update_succeeds_with_wrong_trapdoor :
    natOfBytes [3] % curveN ≠ pubA.pubX % curveN ∧
    updW = some (updWroot, updWrnd) ∧
    VerifyMerkleRoot shaToy (shaToy [5] ++ shaToy [6]) root2.hashOf pubA updWrnd = false := by
  refine ⟨by decide, by decide, by decide⟩

/-- C8: json.Marshal renders the metadata's byte fields as padded
standard base64, not lowercase hex, and ParseTxValue applied to the
serialized bytes aborts (log.Fatalf, modelled `fatal`) rather than
returning the metadata. -/
theorem C8_serialization_base64_not_hex :
    marshalMetaData mC8 =
      ("\x7b\"rootHash\":\"/w==\",\"randomNum\":\"/wA=\",\"publicKey\":\"AQID\",\"leaves\":[\"/w==\"]\x7d").toList ∧
    ParseTxValue (marshalMetaData mC8) = GoParseRet.fatal := by
  exact ⟨by decide, by decide⟩

/-- C6: whenever UpdateMerkleTree returns a result, the returned root
carries, byte for byte, the supplied previous root hash. -/
theorem C6_update_preserves_root_hash :
    ∀ (sha : List Nat → List Nat) (blocks : List (List Nat)) (pub : ChameleomPubKey)
      (sk prh ch : List Nat) (rnd : ChameleonRandomNum) (rt : MerkleNode)
      (r2 : ChameleonRandomNum),
      UpdateMerkleTree sha blocks pub sk prh ch rnd = some (rt, r2) →
      rt.hashOf = prh := by
  intro sha blocks pub sk prh ch rnd rt r2 h
  rcases htop : topOf (buildLevels sha
      (blocks.map (fun b => MerkleNode.node (sha b) .nil .nil))) with _ | ⟨a, b, c⟩
  · rw [UpdateMerkleTree, htop] at h
    exact Option.noConfusion h
  · rw [UpdateMerkleTree_eq sha blocks pub sk prh ch rnd a b c htop] at h
    simp only [Option.some.injEq, Prod.mk.injEq] at h
    rw [← h.1]
    rfl

/-- C6 witness: a concrete successful update whose root carries the
supplied previous root hash `[7, 7]`. -/
theorem C6_update_preserves_root_hash_witness :
    updBroot.hashOf = [7, 7] :=
  C6_update_preserves_root_hash shaToy [[5], [6]] pubA [3] [7, 7] [8, 8]
    ⟨1, 2, 3⟩ updBroot updBrnd (by decide)

/-- C7 amended: UpdateMerkleTree performs no trapdoor validation at all;
it returns a result for every non-empty stream, whatever the secret key. -/
theorem C7_amended_no_trapdoor_validation :
    ∀ (sha : List Nat → List Nat) (blocks : List (List Nat)) (pub : ChameleomPubKey)
      (sk prh ch : List Nat) (rnd : ChameleonRandomNum), blocks ≠ [] →
      ∃ rt r2, UpdateMerkleTree sha blocks pub sk prh ch rnd = some (rt, r2) := by
  intro sha blocks pub sk prh ch rnd hne
  have hmap : blocks.map (fun b => MerkleNode.node (sha b) .nil .nil) ≠ [] := by
    simpa using hne
  obtain ⟨a, b, c, htop⟩ := topOf_of_ne_nil _ (buildLevels_ne_nil sha _ hmap)
  exact ⟨_, _, UpdateMerkleTree_eq sha blocks pub sk prh ch rnd a b c htop⟩

/-- C7 amended witness: a concrete non-empty stream on which the update
returns a result. -/
theorem C7_amended_no_trapdoor_validation_witness :
    ∃ rt r2, UpdateMerkleTree shaToy [[5], [6]] pubA [3] [7, 7] [8, 8] ⟨1, 2, 3⟩
      = some (rt, r2) :=
  C7_amended_no_trapdoor_validation shaToy [[5], [6]] pubA [3] [7, 7] [8, 8]
    ⟨1, 2, 3⟩ (by decide)

/-- C10: RebuildMerkleTreeFromMetaData completes without an out-of-range
access whenever the randomness has at least 64 bytes, the public key at
least 32 bytes and the leaf list is non-empty; violating any one of the
three preconditions reaches the out-of-range branch (modelled `none`). -/
theorem C10_rebuild_preconditions :
    (∀ (sha : List Nat → List Nat) (md : MetaData),
      64 ≤ md.RandomNum.length → 32 ≤ md.PublicKey.length → md.Leaves ≠ [] →
      RebuildMerkleTreeFromMetaData sha md ≠ none) ∧
    RebuildMerkleTreeFromMetaData shaToy ⟨[1], List.replicate 64 0, List.replicate 32 0, []⟩ = none ∧
    RebuildMerkleTreeFromMetaData shaToy ⟨[1], List.replicate 63 0, List.replicate 32 0, [[1]]⟩ = none ∧
    RebuildMerkleTreeFromMetaData shaToy ⟨[1], List.replicate 64 0, List.replicate 31 0, [[1]]⟩ = none := by
  refine ⟨?_, by decide, by decide, by decide⟩
  intro sha md h64 h32 hne hcontra
  have hmap : md.Leaves.map (fun h => MerkleNode.node h .nil .nil) ≠ [] := by
    simpa using hne
  obtain ⟨a, b, c, htop⟩ := topOf_of_ne_nil _ (buildLevels_ne_nil sha _ hmap)
  have hrn : DeserializeChameleonRandomNum md.RandomNum =
      some ⟨natOfBytes (md.RandomNum.take 32), natOfBytes ((md.RandomNum.drop 32).take 32),
        natOfBytes (md.RandomNum.drop 64)⟩ := by
    unfold DeserializeChameleonRandomNum
    rw [if_neg (by omega)]
  have hpk : DeserializeChameleomPubKey md.PublicKey =
      some ⟨natOfBytes (md.PublicKey.take 32), natOfBytes (md.PublicKey.drop 32)⟩ := by
    unfold DeserializeChameleomPubKey
    rw [if_neg (by omega)]
  rw [RebuildMerkleTreeFromMetaData_eq sha md a b c _ _ htop hrn hpk] at hcontra
  by_cases hv : VerifyMerkleRoot sha c md.RootHash
      ⟨natOfBytes (md.PublicKey.take 32), natOfBytes (md.PublicKey.drop 32)⟩
      ⟨natOfBytes (md.RandomNum.take 32), natOfBytes ((md.RandomNum.drop 32).take 32),
        natOfBytes (md.RandomNum.drop 64)⟩ = true
  · rw [if_pos hv] at hcontra
    exact Option.noConfusion hcontra
  · rw [if_neg hv] at hcontra
    exact Option.noConfusion hcontra

/-- C10 witness: a concrete metadata value meeting all three
preconditions on which the rebuild does not panic. -/
theorem C10_rebuild_preconditions_witness :
    RebuildMerkleTreeFromMetaData shaToy
      ⟨[1], List.replicate 64 0, List.replicate 32 0, [[1]]⟩ ≠ none :=
  C10_rebuild_preconditions.1 shaToy
    ⟨[1], List.replicate 64 0, List.replicate 32 0, [[1]]⟩
    (by decide) (by decide) (by decide)

/-- Appending one pair to an even-length list folds that pair first. -/
theorem pairChain_append_pair (sha : List Nat → List Nat) :
    ∀ (d : Nat) (xs : List (List Nat)) (L R cur : List Nat), xs.length = 2 * d →
      pairChain sha (xs ++ [L, R]) cur = pairChain sha xs (stepPair sha L R cur) := by
  intro d
  induction d with
  | zero =>
    intro xs L R cur hlen
    have hx : xs = [] := List.eq_nil_of_length_eq_zero (by omega)
    subst hx
    rfl
  | succ d ih =>
    intro xs L R cur hlen
    match xs with
    | x :: y :: rest =>
      have hr : rest.length = 2 * d := by
        simp only [List.length_cons] at hlen
        omega
      show stepPair sha x y (pairChain sha (rest ++ [L, R]) cur) = _
      rw [ih rest L R cur hr]
      rfl

/-- One unfolding of the verification loop at an index of at least two. -/
theorem verifySteps_succ (sha : List Nat → List Nat) (mp : List (List Nat))
    (i : Nat) (cur : List Nat) :
    verifySteps sha mp (i + 2) cur =
      verifySteps sha mp i
        (sha (if mp.getD (i + 2) [] = [] then cur ++ mp.getD (i + 3) []
          else mp.getD (i + 2) [] ++ cur)) := rfl

/-- Entries of the proof list beyond the inspected indices do not affect
the verification loop. -/
theorem verifySteps_append (sha : List Nat → List Nat) :
    ∀ (i : Nat) (xs tail : List (List Nat)) (cur : List Nat), i + 1 < xs.length →
      verifySteps sha (xs ++ tail) i cur = verifySteps sha xs i cur := by
  intro i
  induction i using Nat.strong_induction_on with
  | _ i ih =>
    match i with
    | 0 => intro xs tail cur _; rfl
    | 1 => intro xs tail cur _; rfl
    | j + 2 =>
      intro xs tail cur hlen
      rw [verifySteps_succ, verifySteps_succ,
        List.getD_append _ _ _ _ (by omega), List.getD_append _ _ _ _ (by omega)]
      exact ih j (by omega) xs tail _ (by omega)

/-- The verification loop on an even-length proof equals the structural
pair fold of the proof without its first pair. -/
theorem verifySteps_eq_pairChain (sha : List Nat → List Nat) :
    ∀ (d : Nat) (mp : List (List Nat)) (cur : List Nat), mp.length = 2 * d + 2 →
      verifySteps sha mp (2 * d) cur = pairChain sha (mp.drop 2) cur := by
  intro d
  induction d with
  | zero =>
    intro mp cur hlen
    rw [List.drop_eq_nil_of_le (by omega)]
    rfl
  | succ d ih =>
    intro mp cur hlen
    have hxs : mp = mp.take (2 * d + 2) ++ mp.drop (2 * d + 2) := (List.take_append_drop _ _).symm
    have hlen2 : (mp.drop (2 * d + 2)).length = 2 := by
      rw [List.length_drop]
      omega
    match hd : mp.drop (2 * d + 2) with
    | [L, R] =>
      have hmp : mp = mp.take (2 * d + 2) ++ [L, R] := by
        rw [← hd]
        exact hxs
      have htk : (mp.take (2 * d + 2)).length = 2 * d + 2 := by
        rw [List.length_take]
        omega
      have hL : mp.getD (2 * d + 2) [] = L := by
        conv_lhs => rw [hmp]
        rw [List.getD_eq_getElem?_getD, List.getElem?_append_right (by omega)]
        simp [htk]
      have hR : mp.getD (2 * d + 3) [] = R := by
        conv_lhs => rw [hmp]
        rw [List.getD_eq_getElem?_getD, List.getElem?_append_right (by omega)]
        simp [htk]
      rw [show 2 * (d + 1) = 2 * d + 2 from by ring, verifySteps_succ, hL, hR]
      have hstep : verifySteps sha mp (2 * d)
          (sha (if L = [] then cur ++ R else L ++ cur)) =
          verifySteps sha (mp.take (2 * d + 2)) (2 * d)
            (sha (if L = [] then cur ++ R else L ++ cur)) := by
        conv_lhs => rw [hmp]
        exact verifySteps_append sha (2 * d) _ [L, R] _ (by omega)
      rw [hstep, ih (mp.take (2 * d + 2)) _ htk]
      have hdrop : mp.drop 2 = (mp.take (2 * d + 2)).drop 2 ++ [L, R] := by
        conv_lhs => rw [hmp]
        rw [List.drop_append_of_le_length (by omega)]
      rw [hdrop, pairChain_append_pair sha d _ L R cur (by rw [List.length_drop]; omega)]
      rfl
    | [] => simp [hd] at hlen2
    | [x] => simp [hd] at hlen2
    | x :: y :: z :: rest => simp [hd] at hlen2

/-- A good non-nil node's hash is a `sha` image. -/
theorem goodT_hash_sha (sha : List Nat → List Nat) :
    ∀ t : MerkleNode, goodT sha t → t ≠ .nil → ∃ m, t.hashOf = sha m := by
  intro t hg hne
  match t with
  | .nil => exact absurd rfl hne
  | .node h .nil .nil => exact hg
  | .node h .nil (.node _ _ _) => exact absurd hg id
  | .node h (.node _ _ _) .nil => exact absurd hg id
  | .node h (.node lh ll lr) (.node rh rl rr) => exact ⟨_, hg.1⟩

/-- A good non-nil node's hash is non-empty when `sha` has 32-byte
outputs. -/
theorem goodT_hash_ne_nil (sha : List Nat → List Nat) (hsha : ∀ m, (sha m).length = 32)
    (t : MerkleNode) (hg : goodT sha t) (hne : t ≠ .nil) : t.hashOf ≠ [] := by
  obtain ⟨m, hm⟩ := goodT_hash_sha sha t hg hne
  intro hcontra
  rw [hm] at hcontra
  have := hsha m
  rw [hcontra] at this
  simp at this

/-- The DFS finds a node if and only if the target occurs among the
tree's hashes. -/
theorem findDirs_none_iff :
    ∀ (t : MerkleNode) (target : List Nat),
      findDirs t target = none ↔ target ∉ treeHashes t := by
  intro t
  induction t with
  | nil => intro target; simp [findDirs, treeHashes]
  | node h l r ihl ihr =>
    intro target
    by_cases hh : h = target
    · subst hh
      simp [findDirs, treeHashes]
    · rw [show findDirs (.node h l r) target =
          (match findDirs l target with
           | some ds => some (true :: ds)
           | none =>
             match findDirs r target with
             | some ds => some (false :: ds)
             | none => none) from by rw [findDirs, if_neg hh]]
      rcases hfl : findDirs l target with _ | dsl
      · rcases hfr : findDirs r target with _ | dsr
        · simp only [treeHashes, List.mem_cons, List.mem_append]
          constructor
          · intro _ hc
            rcases hc with hc | hc | hc
            · exact hh hc.symm
            · exact (ihl target).mp hfl hc
            · exact (ihr target).mp hfr hc
          · intro _
            trivial
        · simp only [treeHashes, List.mem_cons, List.mem_append]
          constructor
          · intro hc
            exact Option.noConfusion hc
          · intro hc
            have : target ∈ treeHashes r := by
              by_contra hmem
              rw [← ihr target] at hmem
              rw [hfr] at hmem
              exact Option.noConfusion hmem
            exact absurd (Or.inr (Or.inr this)) hc
      · simp only [treeHashes, List.mem_cons, List.mem_append]
        constructor
        · intro hc
          exact Option.noConfusion hc
        · intro hc
          have : target ∈ treeHashes l := by
            by_contra hmem
            rw [← ihl target] at hmem
            rw [hfl] at hmem
            exact Option.noConfusion hmem
          exact absurd (Or.inr (Or.inl this)) hc

/-- A successful DFS yields a sibling list of twice the path length. -/
theorem sibsAlong_length :
    ∀ (ds : List Bool) (t : MerkleNode) (target : List Nat),
      findDirs t target = some ds → (sibsAlong t ds).length = 2 * ds.length := by
  intro ds
  induction ds with
  | nil => intro t target _; simp [sibsAlong]
  | cons d rest ih =>
    intro t target hfd
    match t with
    | .nil => exact Option.noConfusion hfd
    | .node h l r =>
      by_cases hh : h = target
      · rw [findDirs, if_pos hh] at hfd
        injection hfd with hfd
        exact absurd hfd.symm (List.cons_ne_nil d rest)
      · rw [findDirs, if_neg hh] at hfd
        rcases hfl : findDirs l target with _ | dsl
        · rw [hfl] at hfd
          rcases hfr : findDirs r target with _ | dsr
          · rw [hfr] at hfd
            exact Option.noConfusion hfd
          · rw [hfr] at hfd
            injection hfd with hfd
            obtain ⟨hd, hrest⟩ := List.cons.inj hfd
            subst hd
            rw [hrest] at hfr
            show (l.hashOf :: [] :: sibsAlong r rest).length = _
            have := ih r target hfr
            simp only [List.length_cons, this]
            omega
        · rw [hfl] at hfd
          injection hfd with hfd
          obtain ⟨hd, hrest⟩ := List.cons.inj hfd
          subst hd
          rw [hrest] at hfl
          show (([] : List Nat) :: r.hashOf :: sibsAlong l rest).length = _
          have := ih l target hfl
          simp only [List.length_cons, this]
          omega

/-- Folding the siblings found below a good subtree reconstructs that
subtree's hash. -/
theorem pairChain_sibsAlong (sha : List Nat → List Nat)
    (hsha : ∀ m, (sha m).length = 32) :
    ∀ (ds : List Bool) (c : MerkleNode) (target : List Nat), goodT sha c →
      findDirs c target = some ds →
      pairChain sha (sibsAlong c ds) target = c.hashOf := by
  intro ds
  induction ds with
  | nil =>
    intro c target hg hfd
    match c with
    | .nil => exact Option.noConfusion hfd
    | .node h l r =>
      by_cases hh : h = target
      · subst hh
        rfl
      · rw [findDirs, if_neg hh] at hfd
        rcases hfl : findDirs l target with _ | dsl
        · rw [hfl] at hfd
          rcases hfr : findDirs r target with _ | dsr
          · rw [hfr] at hfd
            exact Option.noConfusion hfd
          · rw [hfr] at hfd
            injection hfd with hfd
            exact absurd hfd (List.cons_ne_nil false dsr)
        · rw [hfl] at hfd
          injection hfd with hfd
          exact absurd hfd (List.cons_ne_nil true dsl)
  | cons d rest ih =>
    intro c target hg hfd
    match c with
    | .nil => exact Option.noConfusion hfd
    | .node h l r =>
      by_cases hh : h = target
      · rw [findDirs, if_pos hh] at hfd
        injection hfd with hfd
        exact absurd hfd.symm (List.cons_ne_nil d rest)
      · rw [findDirs, if_neg hh] at hfd
        rcases hfl : findDirs l target with _ | dsl
        · rw [hfl] at hfd
          rcases hfr : findDirs r target with _ | dsr
          · rw [hfr] at hfd
            exact Option.noConfusion hfd
          · rw [hfr] at hfd
            injection hfd with hfd
            obtain ⟨hd, hrest⟩ := List.cons.inj hfd
            subst hd
            rw [hrest] at hfr
            have hrnil : r ≠ .nil := by
              intro hr
              subst hr
              exact Option.noConfusion hfr
            match l, r, hg with
            | .nil, .node rh rl rr, hg => exact absurd hg id
            | .node lh ll lr, .node rh rl rr, hg =>
              show pairChain sha ((MerkleNode.node lh ll lr).hashOf :: [] ::
                sibsAlong (.node rh rl rr) rest) target = _
              show stepPair sha (MerkleNode.node lh ll lr).hashOf []
                (pairChain sha (sibsAlong (.node rh rl rr) rest) target) = _
              rw [ih (.node rh rl rr) target hg.2.2 hfr]
              rw [stepPair, if_neg (goodT_hash_ne_nil sha hsha _ hg.2.1 (by intro hc; exact MerkleNode.noConfusion hc))]
              exact hg.1.symm
            | .nil, .nil, hg => exact absurd rfl hrnil
            | .node lh ll lr, .nil, hg => exact absurd rfl hrnil
        · rw [hfl] at hfd
          injection hfd with hfd
          obtain ⟨hd, hrest⟩ := List.cons.inj hfd
          subst hd
          rw [hrest] at hfl
          have hlnil : l ≠ .nil := by
            intro hl
            subst hl
            exact Option.noConfusion hfl
          match l, r, hg with
          | .node lh ll lr, .nil, hg => exact absurd hg id
          | .node lh ll lr, .node rh rl rr, hg =>
            show pairChain sha (([] : List Nat) :: (MerkleNode.node rh rl rr).hashOf ::
              sibsAlong (.node lh ll lr) rest) target = _
            show stepPair sha [] (MerkleNode.node rh rl rr).hashOf
              (pairChain sha (sibsAlong (.node lh ll lr) rest) target) = _
            rw [ih (.node lh ll lr) target hg.2.1 hfl]
            rw [stepPair, if_pos rfl]
            exact hg.1.symm
          | .nil, _, hg => exact absurd rfl hlnil

/-- Every hash emitted by the breadth-first walk is a hash of some queued
tree. -/
theorem bfsLeavesGo_subset :
    ∀ (f : Nat) (q : List MerkleNode) (target : List Nat),
      target ∈ bfsLeavesGo f q → target ∈ (q.map treeHashes).flatten := by
  intro f
  induction f with
  | zero => intro q target h; simp [bfsLeavesGo] at h
  | succ f ih =>
    intro q target h
    match q with
    | [] => simp [bfsLeavesGo] at h
    | .nil :: rest =>
      have hmem := ih rest target (by simpa [bfsLeavesGo] using h)
      simpa [treeHashes] using hmem
    | .node hh l r :: rest =>
      rw [show bfsLeavesGo (f + 1) (.node hh l r :: rest) =
          (if l = .nil ∧ r = .nil then [hh] else []) ++
            bfsLeavesGo f (rest ++ ((if l = .nil then [] else [l]) ++
              (if r = .nil then [] else [r]))) from rfl] at h
      rcases List.mem_append.mp h with h1 | h2
      · have hth : target = hh := by
          by_cases hc : l = .nil ∧ r = .nil
          · rw [if_pos hc] at h1
            simpa using h1
          · rw [if_neg hc] at h1
            simp at h1
        subst hth
        simp [treeHashes]
      · have hmem := ih _ target h2
        rw [List.map_append, List.flatten_append] at hmem
        rcases List.mem_append.mp hmem with hA | hB
        · simp only [List.map_cons, List.flatten, treeHashes, List.mem_append, List.mem_cons]
          tauto
        · by_cases hl : l = .nil <;> by_cases hr : r = .nil <;>
            simp only [hl, hr, List.map_cons, List.map_nil, List.flatten, List.append_nil,
              List.nil_append, List.mem_append, List.mem_cons, List.not_mem_nil,
              treeHashes] at hB ⊢ <;> tauto

/-- Every collected leaf hash occurs among the tree's node hashes. -/
theorem mem_leaves_mem_treeHashes (root : MerkleNode) (target : List Nat)
    (h : target ∈ GetAllLeavesHashes root) : target ∈ treeHashes root := by
  have hmem := bfsLeavesGo_subset (queueSize [root]) [root] target h
  simpa using hmem

/-- The leaf nodes made from the blocks are good and non-nil. -/
theorem leaves_good (sha : List Nat → List Nat) (blocks : List (List Nat)) :
    ∀ t ∈ blocks.map (fun b => MerkleNode.node (sha b) .nil .nil),
      goodT sha t ∧ t ≠ .nil := by
  intro t ht
  obtain ⟨b, _, rfl⟩ := List.mem_map.mp ht
  exact ⟨⟨b, rfl⟩, fun hc => MerkleNode.noConfusion hc⟩

/-- Pairing preserves goodness and non-nilness of a level. -/
theorem pairUp_good (sha : List Nat → List Nat) :
    ∀ l : List MerkleNode, (∀ t ∈ l, goodT sha t ∧ t ≠ .nil) →
      ∀ t ∈ pairUp sha l, goodT sha t ∧ t ≠ .nil := by
  have H : ∀ (n : Nat) (l : List MerkleNode), l.length = n →
      (∀ t ∈ l, goodT sha t ∧ t ≠ .nil) →
      ∀ t ∈ pairUp sha l, goodT sha t ∧ t ≠ .nil := by
    intro n
    induction n using Nat.strong_induction_on with
    | _ n ihn =>
      intro l hlen hall t ht
      match l with
      | [] => simp [pairUp] at ht
      | [a] =>
        rw [show pairUp sha [a] = [a] from rfl] at ht
        rw [List.mem_singleton.mp ht]
        exact hall a (by simp)
      | a :: b :: rest =>
        rw [show pairUp sha (a :: b :: rest) =
            .node (sha (a.hashOf ++ b.hashOf)) a b :: pairUp sha rest from rfl] at ht
        rcases List.mem_cons.mp ht with h1 | h2
        · subst h1
          obtain ⟨hga, hna⟩ := hall a (by simp)
          obtain ⟨hgb, hnb⟩ := hall b (by simp)
          refine ⟨?_, fun hc => MerkleNode.noConfusion hc⟩
          match a, b with
          | .node ah al ar, .node bh bl br => exact ⟨rfl, hga, hgb⟩
          | .nil, _ => exact absurd rfl hna
          | .node _ _ _, .nil => exact absurd rfl hnb
        · exact ihn rest.length (by simp only [List.length_cons] at hlen; omega) rest rfl
            (fun u hu => hall u (by simp [hu])) t h2
  exact fun l => H l.length l rfl

/-- The build loop preserves goodness and non-nilness of a level. -/
theorem buildLevelsGo_good (sha : List Nat → List Nat) :
    ∀ (f : Nat) (l : List MerkleNode), (∀ t ∈ l, goodT sha t ∧ t ≠ .nil) →
      ∀ t ∈ buildLevelsGo sha f l, goodT sha t ∧ t ≠ .nil := by
  intro f
  induction f with
  | zero => intro l hall; simpa [buildLevelsGo] using hall
  | succ f ih =>
    intro l hall t ht
    by_cases h2 : 2 < l.length
    · rw [show buildLevelsGo sha (f + 1) l =
          if 2 < l.length then buildLevelsGo sha f (pairUp sha l) else l from rfl,
        if_pos h2] at ht
      exact ih _ (pairUp_good sha l hall) t ht
    · rw [show buildLevelsGo sha (f + 1) l =
          if 2 < l.length then buildLevelsGo sha f (pairUp sha l) else l from rfl,
        if_neg h2] at ht
      exact hall t ht

/-- Every node of a built level is good and non-nil. -/
theorem buildLevels_good (sha : List Nat → List Nat) (blocks : List (List Nat)) :
    ∀ t ∈ buildLevels sha (blocks.map (fun b => MerkleNode.node (sha b) .nil .nil)),
      goodT sha t ∧ t ≠ .nil :=
  buildLevelsGo_good sha _ _ (leaves_good sha blocks)

/-- Verification of a proof whose first slot is empty: the top digest is
the folded hash, extended on the right by the second slot when that slot
is not empty. -/
theorem VerifyMerkleProof_empty_first (sha : List Nat → List Nat)
    (rootHash target p1 : List Nat) (rest : List (List Nat))
    (pub : ChameleomPubKey) (rnd : ChameleonRandomNum) :
    VerifyMerkleProof sha rootHash target (([] : List Nat) :: p1 :: rest) pub rnd =
      some (VerifyMerkleRoot sha
        (if p1 = [] then
          verifySteps sha ([] :: p1 :: rest) (([] :: p1 :: rest).length - 2) target
         else
          verifySteps sha ([] :: p1 :: rest) (([] :: p1 :: rest).length - 2) target ++ p1)
        rootHash pub rnd) := by
  by_cases hp : p1 = []
  · subst hp
    rfl
  · simp [VerifyMerkleProof, hp]

/-- Verification of a proof whose first slot is non-empty: the top digest
is that slot followed by the folded hash. -/
theorem VerifyMerkleProof_ne_first (sha : List Nat → List Nat)
    (rootHash target p0 : List Nat) (rest : List (List Nat))
    (pub : ChameleomPubKey) (rnd : ChameleonRandomNum) (hp : p0 ≠ []) :
    VerifyMerkleProof sha rootHash target (p0 :: rest) pub rnd =
      some (VerifyMerkleRoot sha
        (p0 ++ verifySteps sha (p0 :: rest) ((p0 :: rest).length - 2) target)
        rootHash pub rnd) := by
  simp [VerifyMerkleProof, hp]

/-- Chameleon verification accepts the output of the chameleon hash on
the same message (the spec's 4.2 round trip, valid in the model). -/
theorem VerifyMerkleRoot_of_build (sha : List Nat → List Nat) (m : List Nat)
    (pub : ChameleomPubKey) (k s : Nat) :
    VerifyMerkleRoot sha m (natBytes ((ComputeHash sha m pub.pubX pub.pubY k s).2.2.2)) pub
      ⟨(ComputeHash sha m pub.pubX pub.pubY k s).1,
       (ComputeHash sha m pub.pubX pub.pubY k s).2.1,
       (ComputeHash sha m pub.pubX pub.pubY k s).2.2.1⟩ = true := by
  simp only [VerifyMerkleRoot, VerifyHash, ComputeHash]
  rw [natOfBytes_natBytes]
  exact beq_self_eq_true _

/-- The fixed-width rendering always has the requested width. -/
theorem natBytesFixed_length : ∀ (w n : Nat), (natBytesFixed w n).length = w := by
  intro w
  induction w with
  | zero => intro n; rfl
  | succ w ih =>
    intro n
    simp [natBytesFixed, ih]

/-- C3 amended: for every built tree (SHA-256 having 32-byte outputs),
every collected leaf hash distinct from the root's own hash bytes
verifies with its generated proof; and for every byte string that is no
node's hash, the generated proof is empty and verification of it reaches
the out-of-range access (modelled `none`) instead of returning false. -/
theorem C3_amended_proof_soundness :
    ∀ (sha : List Nat → List Nat) (blocks : List (List Nat)) (pub : ChameleomPubKey)
      (k s : Nat) (root : MerkleNode) (rnd : ChameleonRandomNum) (comb : List Nat),
      (∀ m, (sha m).length = 32) → blocks ≠ [] →
      BuildMerkleTree sha blocks pub k s = some (root, rnd, comb) →
      (∀ target, target ∈ GetAllLeavesHashes root → target ≠ root.hashOf →
        VerifyMerkleProof sha root.hashOf target (GenerateMerkleProof root target)
          pub rnd = some true) ∧
      (∀ h2, h2 ∉ treeHashes root →
        GenerateMerkleProof root h2 = [] ∧
        VerifyMerkleProof sha root.hashOf h2 [] pub rnd = none) := by
  intro sha blocks pub k s root rnd comb hsha hbne h
  have hmap : blocks.map (fun b => MerkleNode.node (sha b) .nil .nil) ≠ [] := by
    simpa using hbne
  obtain ⟨a, b, c, htop⟩ := topOf_of_ne_nil _ (buildLevels_ne_nil sha _ hmap)
  rw [BuildMerkleTree_eq sha blocks pub k s a b c htop] at h
  simp only [Option.some.injEq, Prod.mk.injEq] at h
  obtain ⟨hroot, hrnd, hcomb⟩ := h
  have hstruct : (goodT sha a ∧ a ≠ .nil) ∧
      ((b = .nil ∧ c = a.hashOf) ∨ ((goodT sha b ∧ b ≠ .nil) ∧ c = a.hashOf ++ b.hashOf)) := by
    rcases hl : buildLevels sha (blocks.map fun b => MerkleNode.node (sha b) .nil .nil)
      with _ | ⟨x, _ | ⟨y, tl2⟩⟩
    · rw [hl] at htop
      exact Option.noConfusion htop
    · rw [hl] at htop
      simp only [topOf, Option.some.injEq, Prod.mk.injEq] at htop
      obtain ⟨hx, hb, hc⟩ := htop
      refine ⟨buildLevels_good sha blocks a (by rw [hl, ← hx]; simp),
        Or.inl ⟨hb.symm, by rw [← hc, hx]⟩⟩
    · rw [hl] at htop
      simp only [topOf, Option.some.injEq, Prod.mk.injEq] at htop
      obtain ⟨hx, hy, hc⟩ := htop
      refine ⟨buildLevels_good sha blocks a (by rw [hl, ← hx]; simp), Or.inr
        ⟨buildLevels_good sha blocks b (by rw [hl, ← hy]; simp), by rw [← hc, hx, hy]⟩⟩
  obtain ⟨⟨hga, hna⟩, hbc⟩ := hstruct
  subst hroot
  subst hrnd
  subst hcomb
  constructor
  · intro target htmem htne
    have hth : target ∈ treeHashes (MerkleNode.node
        (natBytes ((ComputeHash sha c pub.pubX pub.pubY k s).2.2.2)) a b) :=
      mem_leaves_mem_treeHashes _ _ htmem
    have htne' : ¬(natBytes ((ComputeHash sha c pub.pubX pub.pubY k s).2.2.2)) = target :=
      fun hc2 => htne hc2.symm
    have hthab : target ∈ treeHashes a ∨ target ∈ treeHashes b := by
      rcases (by simpa [treeHashes, List.mem_cons, List.mem_append] using hth :
          target = natBytes ((ComputeHash sha c pub.pubX pub.pubY k s).2.2.2) ∨
          target ∈ treeHashes a ∨ target ∈ treeHashes b) with hc | hc | hc
      · exact absurd hc htne
      · exact Or.inl hc
      · exact Or.inr hc
    rcases hfda : findDirs a target with _ | dsa
    · -- the DFS does not find the target on the left, so it is on the right
      have htb : target ∈ treeHashes b := by
        rcases hthab with hc | hc
        · exact absurd hc ((findDirs_none_iff a target).mp hfda)
        · exact hc
      rcases hfdb : findDirs b target with _ | dsb
      · exact absurd htb ((findDirs_none_iff b target).mp hfdb)
      · have hbnode : b ≠ .nil := by
          intro hc2
          subst hc2
          exact Option.noConfusion hfdb
        rcases hbc with ⟨hbnil, _⟩ | ⟨⟨hgb, _⟩, hceq⟩
        · exact absurd hbnil hbnode
        · have hfdroot : findDirs (.node
              (natBytes ((ComputeHash sha c pub.pubX pub.pubY k s).2.2.2)) a b) target =
              some (false :: dsb) := by
            rw [findDirs, if_neg htne', hfda, hfdb]
          have hgen : GenerateMerkleProof (.node
              (natBytes ((ComputeHash sha c pub.pubX pub.pubY k s).2.2.2)) a b) target =
              a.hashOf :: ([] : List Nat) :: sibsAlong b dsb := by
            rw [GenerateMerkleProof, hfdroot]
            rfl
          rw [hgen]
          have hane : a.hashOf ≠ [] := goodT_hash_ne_nil sha hsha a hga hna
          rw [VerifyMerkleProof_ne_first sha _ target a.hashOf _ pub _ hane]
          have hlen2 : (a.hashOf :: ([] : List Nat) :: sibsAlong b dsb).length =
              2 * dsb.length + 2 := by
            simp [sibsAlong_length dsb b target hfdb]
          have hcur : verifySteps sha (a.hashOf :: ([] : List Nat) :: sibsAlong b dsb)
              ((a.hashOf :: ([] : List Nat) :: sibsAlong b dsb).length - 2) target =
              b.hashOf := by
            rw [hlen2, show 2 * dsb.length + 2 - 2 = 2 * dsb.length from by omega,
              verifySteps_eq_pairChain sha dsb.length _ target hlen2]
            exact pairChain_sibsAlong sha hsha dsb b target hgb hfdb
          rw [hcur, ← hceq]
          exact congrArg some (VerifyMerkleRoot_of_build sha c pub k s)
    · -- the DFS finds the target on the left
      have hfdroot : findDirs (.node
          (natBytes ((ComputeHash sha c pub.pubX pub.pubY k s).2.2.2)) a b) target =
          some (true :: dsa) := by
        rw [findDirs, if_neg htne', hfda]
      have hgen : GenerateMerkleProof (.node
          (natBytes ((ComputeHash sha c pub.pubX pub.pubY k s).2.2.2)) a b) target =
          ([] : List Nat) :: b.hashOf :: sibsAlong a dsa := by
        rw [GenerateMerkleProof, hfdroot]
        rfl
      rw [hgen]
      rw [VerifyMerkleProof_empty_first]
      have hlen2 : (([] : List Nat) :: b.hashOf :: sibsAlong a dsa).length =
          2 * dsa.length + 2 := by
        simp [sibsAlong_length dsa a target hfda]
      have hcur : verifySteps sha (([] : List Nat) :: b.hashOf :: sibsAlong a dsa)
          ((([] : List Nat) :: b.hashOf :: sibsAlong a dsa).length - 2) target =
          a.hashOf := by
        rw [hlen2, show 2 * dsa.length + 2 - 2 = 2 * dsa.length from by omega,
          verifySteps_eq_pairChain sha dsa.length _ target hlen2]
        exact pairChain_sibsAlong sha hsha dsa a target hga hfda
      rcases hbc with ⟨hbnil, hceq⟩ | ⟨⟨hgb, hnb⟩, hceq⟩
      · subst hbnil
        rw [if_pos (show MerkleNode.hashOf .nil = ([] : List Nat) from rfl), hcur, ← hceq]
        exact congrArg some (VerifyMerkleRoot_of_build sha c pub k s)
      · rw [if_neg (goodT_hash_ne_nil sha hsha b hgb hnb), hcur, ← hceq]
        exact congrArg some (VerifyMerkleRoot_of_build sha c pub k s)
  · intro h2 hmem
    have hfd : findDirs (.node
        (natBytes ((ComputeHash sha c pub.pubX pub.pubY k s).2.2.2)) a b) h2 = none :=
      (findDirs_none_iff _ _).mpr hmem
    constructor
    · rw [GenerateMerkleProof, hfd]
    · rfl

/-- C3 amended witness: on the concrete two-block build, the first leaf
hash verifies with its generated proof. -/
theorem C3_amended_proof_soundness_witness :
    VerifyMerkleProof shaToy root2.hashOf (shaToy [1])
      (GenerateMerkleProof root2 (shaToy [1])) pubA rnd2 = some true :=
  ((C3_amended_proof_soundness shaToy [[1], [2]] pubA kA sA root2 rnd2 comb2
      (fun m => natBytesFixed_length 32 _) (by decide) (by decide)).1
    (shaToy [1]) (by decide) (by decide))

/-- C4 amended: on a single-block stream whose leaf hash differs from the
root's own hash bytes, the generated proof is the single all-empty pair
`[ε, ε]` (not the empty sequence), the top digest equals the leaf hash,
verification with the generated pair returns true, and verification with
the literal empty proof reaches the out-of-range access (modelled
`none`). -/
theorem C4_amended_single_leaf :
    ∀ (sha : List Nat → List Nat) (bl : List Nat) (pub : ChameleomPubKey) (k s : Nat)
      (root : MerkleNode) (rnd : ChameleonRandomNum) (comb : List Nat),
      BuildMerkleTree sha [bl] pub k s = some (root, rnd, comb) →
      sha bl ≠ root.hashOf →
      GenerateMerkleProof root (sha bl) = [[], []] ∧
      comb = sha bl ∧
      VerifyMerkleProof sha root.hashOf (sha bl) [[], []] pub rnd = some true ∧
      VerifyMerkleProof sha root.hashOf (sha bl) [] pub rnd = none := by
  intro sha bl pub k s root rnd comb h hne
  have htop : topOf (buildLevels sha ([bl].map (fun b => MerkleNode.node (sha b) .nil .nil)))
      = some (.node (sha bl) .nil .nil, .nil, sha bl) := rfl
  rw [BuildMerkleTree_eq sha [bl] pub k s _ _ _ htop] at h
  simp only [Option.some.injEq, Prod.mk.injEq] at h
  obtain ⟨hroot, hrnd, hcomb⟩ := h
  subst hroot
  subst hrnd
  subst hcomb
  refine ⟨?_, rfl, ?_, rfl⟩
  · have h1 : findDirs (.node (sha bl) .nil .nil) (sha bl) = some [] := by
      unfold findDirs
      rw [if_pos rfl]
    have hfd : findDirs (.node (natBytes ((ComputeHash sha (sha bl) pub.pubX pub.pubY k s).2.2.2))
        (.node (sha bl) .nil .nil) .nil) (sha bl) = some [true] := by
      unfold findDirs
      rw [if_neg fun hh => hne hh.symm, h1]
    unfold GenerateMerkleProof
    rw [hfd]
    rfl
  · exact congrArg some (VerifyMerkleRoot_of_build sha (sha bl) pub k s)

/-- C4 amended witness: the concrete single-block build, where
verification with the generated pair succeeds. -/
theorem C4_amended_single_leaf_witness :
    VerifyMerkleProof shaToy root1.hashOf (shaToy [9]) [[], []] pubA rnd1 = some true :=
  (C4_amended_single_leaf shaToy [9] pubA kA sA root1 rnd1 (shaToy [9])
    (by decide) (by decide)).2.2.1

/-- C9 amended: every decoding failure in ParseTxValue (envelope JSON,
inner metadata JSON, or any hex field) aborts the process via log.Fatalf
(modelled `fatal`), and no input makes ParseTxValue return a non-nil
error value. -/
theorem C9_amended_decode_failures_abort :
    ∀ cs : List Char,
      (envelopeValue cs = none → ParseTxValue cs = GoParseRet.fatal) ∧
      (∀ v, envelopeValue cs = some v → parseDataFields v = none →
        ParseTxValue cs = GoParseRet.fatal) ∧
      (∀ v rh rn pk ls, envelopeValue cs = some v →
        parseDataFields v = some (rh, rn, pk, ls) →
        (hexDecode rh = none ∨ hexDecode rn = none ∨ hexDecode pk = none ∨
          hexDecodeAll ls = none) →
        ParseTxValue cs = GoParseRet.fatal) ∧
      (∀ md e, ParseTxValue cs ≠ GoParseRet.ret md (some e)) := by
  intro cs
  refine ⟨?_, ?_, ?_, ?_⟩
  · intro h
    unfold ParseTxValue
    simp only [h]
  · intro v h1 h2
    unfold ParseTxValue
    simp only [h1, h2]
  · intro v rh rn pk ls h1 h2 h3
    unfold ParseTxValue
    simp only [h1, h2]
    rcases hrh : hexDecode rh with _ | rhv
    · simp only [hrh]
    · rcases hrn : hexDecode rn with _ | rnv
      · simp only [hrh, hrn]
      · rcases hpk : hexDecode pk with _ | pkv
        · simp only [hrh, hrn, hpk]
        · rcases hls : hexDecodeAll ls with _ | lsv
          · simp only [hrh, hrn, hpk, hls]
          · rcases h3 with h | h | h | h
            · exact absurd hrh (h ▸ fun hh => Option.noConfusion hh)
            · exact absurd hrn (h ▸ fun hh => Option.noConfusion hh)
            · exact absurd hpk (h ▸ fun hh => Option.noConfusion hh)
            · exact absurd hls (h ▸ fun hh => Option.noConfusion hh)
  · intro md e
    rcases h1 : envelopeValue cs with _ | v
    · intro hh
      simp only [ParseTxValue, h1] at hh
      exact GoParseRet.noConfusion hh
    · rcases h2 : parseDataFields v with _ | ⟨rh, rn, pk, ls⟩
      · intro hh
        simp only [ParseTxValue, h1, h2] at hh
        exact GoParseRet.noConfusion hh
      · rcases hrh : hexDecode rh with _ | rhv
        · intro hh
          simp only [ParseTxValue, h1, h2, hrh] at hh
          exact GoParseRet.noConfusion hh
        · rcases hrn : hexDecode rn with _ | rnv
          · intro hh
            simp only [ParseTxValue, h1, h2, hrh, hrn] at hh
            exact GoParseRet.noConfusion hh
          · rcases hpk : hexDecode pk with _ | pkv
            · intro hh
              simp only [ParseTxValue, h1, h2, hrh, hrn, hpk] at hh
              exact GoParseRet.noConfusion hh
            · rcases hls : hexDecodeAll ls with _ | lsv
              · intro hh
                simp only [ParseTxValue, h1, h2, hrh, hrn, hpk, hls] at hh
                exact GoParseRet.noConfusion hh
              · intro hh
                simp only [ParseTxValue, h1, h2, hrh, hrn, hpk, hls] at hh
                injection hh with hmd herr
                exact Option.noConfusion herr

/-- C9 amended witness: a concrete input whose envelope JSON fails to
decode, on which ParseTxValue aborts. -/
theorem C9_amended_decode_failures_abort_witness :
    ParseTxValue ("no json").toList = GoParseRet.fatal :=
  (C9_amended_decode_failures_abort ("no json").toList).1 (by decide)

/-- C9 counterexample: on a malformed input ParseTxValue aborts the
process via log.Fatalf (modelled `fatal`); it does not return a
MalformedMetadata error to the caller. -/
theorem C9_malformed_input_aborts :
    ParseTxValue ("\x7b").toList = GoParseRet.fatal ∧
    ∀ md err, ParseTxValue ("\x7b").toList ≠ GoParseRet.ret md err := by
  refine ⟨by decide, fun md err h => ?_⟩
  rw [show ParseTxValue ("\x7b").toList = GoParseRet.fatal by decide] at h
  exact GoParseRet.noConfusion h

end FlexiSN
